import Mathlib

/-!
Verification of the component base class (`component.js`): declarative
configuration resolved from DOM `data-` attributes, class defaults and a
constructor-supplied override; method binding; and delegation of
publish / subscribe / unsubscribe / scan to an injected mediator.
-/

set_option autoImplicit false

/-- Values stored in a configuration object: the DOM always contributes
strings; defaults and overrides may also carry other typed values
(represented here by integers). -/
inductive JSValue where
  | str : String → JSValue
  | num : Int → JSValue
deriving DecidableEq, Repr

/-- Property lookup on a plain object, modelled as an association list in
insertion order (a JS object never holds two entries with one key, so the
first match is the entry). -/
def getEntry {α : Type} : List (String × α) → String → Option α
  | [], _ => none
  | p :: rest, k => if p.1 == k then some p.2 else getEntry rest k

/-- Property assignment `o[k] = v` on a plain object: update the entry
with key `k` in place, or append a fresh entry at the end (JS objects
preserve insertion order). -/
def setEntry {α : Type} : List (String × α) → String → α → List (String × α)
  | [], k, v => [(k, v)]
  | p :: rest, k, v => if p.1 == k then (k, v) :: rest else p :: setEntry rest k v

abbrev JSObject := List (String × JSValue)

/-- A JS object never holds two entries with the same key. -/
def NodupKeys {α : Type} (o : List (String × α)) : Prop :=
  (o.map Prod.fst).Nodup

instance {α : Type} (o : List (String × α)) : Decidable (NodupKeys o) :=
  List.nodupDecidable _

/-- `object-assign` copying one source: every own property of `source` is
assigned onto `target` in iteration order. -/
def assignPairs {α : Type} : List (String × α) → List (String × α) → List (String × α)
  | t, [] => t
  | t, p :: rest => assignPairs (setEntry t p.1 p.2) rest

/-- Variadic `objectAssign(target, ...sources)`; a nullish source (such as
an absent constructor data argument) contributes nothing. -/
def objectAssign (target : JSObject) : List (Option JSObject) → JSObject
  | [] => target
  | none :: rest => objectAssign target rest
  | some s :: rest => objectAssign (assignPairs target s) rest

/-- One DOM attribute of the bound node. -/
structure Attr where
  name : String
  value : String
deriving DecidableEq, Repr

/-- The source's anchored regex test that the attribute name starts with
`data-`, as a check on the character list. -/
def isDataAttr (s : String) : Bool :=
  List.isPrefixOf "data-".data s.data

/-- The source's global replace of `-(.)`  by the uppercased captured
character, on the list of characters: each hyphen followed by a character
(the regex dot does not match a newline) is replaced by that character
uppercased.  Attribute names are ASCII, where `Char.toUpper` agrees with
`toUpperCase()`. -/
def camelChars : List Char → List Char
  | [] => []
  | '-' :: c :: rest =>
      if c = '\n' then '-' :: camelChars (c :: rest)
      else c.toUpper :: camelChars rest
  | c :: rest => c :: camelChars rest

def camelCaseName (s : String) : String :=
  ⟨camelChars s.data⟩

/-- Key contributed by a `data-` attribute: the name with the
five-character prefix `data-` removed (`substr(5)`; attribute names are
ASCII, so JS code units coincide with characters), kebab converted to
camel. -/
def camelKey (a : Attr) : String :=
  camelCaseName ⟨a.name.data.drop 5⟩

/-- Forward scan of the node's attributes collecting `data-` attributes
into a fresh object (`DOMData` in the source). -/
def domDataFrom (acc : JSObject) : List Attr → JSObject
  | [] => acc
  | a :: rest =>
      domDataFrom
        (if isDataAttr a.name then setEntry acc (camelKey a) (JSValue.str a.value) else acc)
        rest

def domData (attrs : List Attr) : JSObject :=
  domDataFrom [] attrs

/-- The component instance: the bound node (represented by its attribute
list), `this.data`, the mapping this (sub)class's `defaultData()`
returns, the injected mediator reference (by identity, `none` modelling
an absent mediator), and the instance's own identity (passed to the
mediator as the subscription owner). -/
structure Component where
  el : List Attr
  data : Option JSObject
  defaults : JSObject
  mediator : Option Nat
  self : Nat
deriving DecidableEq, Repr

/-- `_configureData()`:
`this.data = objectAssign(this.defaultData ? this.defaultData() : {}, DOMData, this.data)`. -/
def Component.configureData (c : Component) : Component :=
  { c with data := some (objectAssign c.defaults [some (domData c.el), c.data]) }

/-- The constructor: store the node, the optional data object and the
mediator, then resolve the configuration. -/
def mkComponent (el : List Attr) (overrideData : Option JSObject)
    (defaults : JSObject) (mediator : Option Nat) (selfId : Nat) : Component :=
  Component.configureData
    { el := el, data := overrideData, defaults := defaults, mediator := mediator, self := selfId }

/-- The configuration object `_configureData` stores into `this.data`. -/
def resolveConfig (defaults : JSObject) (el : List Attr) (overrideData : Option JSObject) :
    JSObject :=
  objectAssign defaults [some (domData el), overrideData]

/-- Failures surfaced to the caller (a JS `TypeError`). -/
inductive JSError where
  | typeError
deriving DecidableEq, Repr

/-- The spec's name for the error `bind` raises when a requested member
is absent or not callable: in the code it is the `TypeError` thrown by
reading `.bind` off the missing or non-callable member. -/
def InvalidMethodName : JSError := JSError.typeError

/-- One call observed at the mediator: which mediator object received it
and the full argument list it was given. -/
inductive MCall where
  | publish (m : Nat) (args : List JSValue)
  | subscribe (m : Nat) (topic : String) (cb : Nat) (owner : Nat)
  | unsubscribe (m : Nat) (topic : String) (cb : Nat) (owner : Nat)
  | scan (m : Nat) (d : Option JSObject)

/-- `publish() { this.__mediator.publish(...arguments); }` — the raw
argument list is forwarded verbatim; dereferencing an absent mediator
throws. -/
def Component.publish (c : Component) (args : List JSValue) :
    Except JSError (Component × List MCall) :=
  match c.mediator with
  | none => Except.error JSError.typeError
  | some m => Except.ok (c, [MCall.publish m args])

/-- `subscribe(topic, callback) { this.__mediator.subscribe(topic, callback, this); }` -/
def Component.subscribe (c : Component) (topic : String) (cb : Nat) :
    Except JSError (Component × List MCall) :=
  match c.mediator with
  | none => Except.error JSError.typeError
  | some m => Except.ok (c, [MCall.subscribe m topic cb c.self])

/-- `unsubscribe(topic, callback) { this.__mediator.unsubscribe(topic, callback, this); }` -/
def Component.unsubscribe (c : Component) (topic : String) (cb : Nat) :
    Except JSError (Component × List MCall) :=
  match c.mediator with
  | none => Except.error JSError.typeError
  | some m => Except.ok (c, [MCall.unsubscribe m topic cb c.self])

/-- `scan(data) { this.__mediator.scan(data); }` -/
def Component.scan (c : Component) (d : Option JSObject) :
    Except JSError (Component × List MCall) :=
  match c.mediator with
  | none => Except.error JSError.typeError
  | some m => Except.ok (c, [MCall.scan m d])

/-- One registration held by the mediator. -/
structure Registration where
  topic : String
  cb : Nat
  owner : Nat
deriving DecidableEq, Repr

/-- Modelled from the spec: the mediator itself (the external
ComponentLoader, not part of this module's sources) deregisters every
registration matching topic, callback and owner, and does nothing — in
particular raises no error — when none matches. -/
def mediatorUnsubscribe (regs : List Registration) (topic : String) (cb owner : Nat) :
    List Registration :=
  regs.filter (fun r => !(r.topic == topic && r.cb == cb && r.owner == owner))

/-- A JS function value, characterised by its observable calling
behaviour: the code it runs and, for a function produced by
`Function.prototype.bind`, the captured receiver. -/
structure JSFunc where
  code : Nat
  boundThis : Option Nat
deriving DecidableEq, Repr

/-- `Function.prototype.bind`: binding an already-bound function cannot
re-target its receiver. -/
def fbind (f : JSFunc) (r : Nat) : JSFunc :=
  match f.boundThis with
  | some _ => f
  | none => { f with boundThis := some r }

/-- The `this` the function's code sees when invoked with the given
receiver (`none` models a detached invocation, without a receiver). -/
def thisArg (f : JSFunc) (receiver : Option Nat) : Option Nat :=
  match f.boundThis with
  | some r => some r
  | none => receiver

/-- A member of the instance: callable or plain data. -/
inductive JSMember where
  | func : JSFunc → JSMember
  | prim : JSValue → JSMember
deriving DecidableEq, Repr

/-- The instance as `bind` sees it: its identity and its member table. -/
structure JSInstance where
  self : Nat
  members : List (String × JSMember)
deriving DecidableEq, Repr

/-- `bind(...names)`: `this[funcName] = this[funcName].bind(this)` for
each name in order; reading `.bind` off a missing or non-callable member
throws at that point. -/
def JSInstance.bind : JSInstance → List String → Except JSError JSInstance
  | inst, [] => Except.ok inst
  | inst, n :: rest =>
      match getEntry inst.members n with
      | some (JSMember.func f) =>
          JSInstance.bind
            ⟨inst.self, setEntry inst.members n (JSMember.func (fbind f inst.self))⟩ rest
      | _ => Except.error JSError.typeError

/-- A pending one-shot timer: which callback it runs and the earliest
time it may fire. -/
structure Timer where
  cb : Nat
  deadline : Nat
deriving DecidableEq, Repr

/-- The host event loop's state: the clock, the timer queue in creation
order, and the log of callback invocations as `(time, callback)`. -/
structure Runtime where
  now : Nat
  pending : List Timer
  fired : List (Nat × Nat)
deriving DecidableEq, Repr

/-- Modelled from the spec: the host's `setTimeout` registers a
single-shot timer that fires no earlier than `ms` from now, never
synchronously, and returns a handle. -/
def setTimeout (rt : Runtime) (cb ms : Nat) : Runtime × Nat :=
  ({ rt with pending := rt.pending ++ [⟨cb, rt.now + ms⟩] }, rt.pending.length)

/-- `defer(callback, ms = 17) { setTimeout(callback, ms); }` — the handle
is discarded, so no cancellation handle reaches the caller. -/
def defer (rt : Runtime) (cb : Nat) (ms : Option Nat) : Runtime :=
  (setTimeout rt cb (ms.getD 17)).1

def firstReady (now : Nat) : List Timer → Option Timer
  | [] => none
  | t :: ts => if t.deadline ≤ now then some t else firstReady now ts

def removeFirstReady (now : Nat) : List Timer → List Timer
  | [] => []
  | t :: ts => if t.deadline ≤ now then ts else t :: removeFirstReady now ts

/-- Modelled from the spec: one turn of the single-queue event loop —
fire the first scheduled timer that is due, removing it from the queue,
or else let time advance. -/
def loopStep (s : Runtime) : Runtime :=
  match firstReady s.now s.pending with
  | some t =>
      { s with pending := removeFirstReady s.now s.pending,
               fired := s.fired ++ [(s.now, t.cb)] }
  | none => { s with now := s.now + 1 }

def run : Nat → Runtime → Runtime
  | 0, s => s
  | n + 1, s => run n (loopStep s)

def countPending (cb : Nat) (ts : List Timer) : Nat :=
  ts.countP (fun t => t.cb == cb)

def countFired (cb : Nat) (log : List (Nat × Nat)) : Nat :=
  log.countP (fun p => p.2 == cb)

def maxDeadline (ts : List Timer) : Nat :=
  ts.foldr (fun t m => max t.deadline m) 0

/-- Termination measure for the event loop: time left until the last
deadline, plus the queue length. -/
def rtMeasure (s : Runtime) : Nat :=
  (maxDeadline s.pending - s.now) + s.pending.length

/-- The end-to-end scenario's defaults `{count: 1, label: 'x', extra: 'z'}`. -/
def demoDefaults : JSObject :=
  [("count", JSValue.num 1), ("label", JSValue.str "x"), ("extra", JSValue.str "z")]

/-- The end-to-end scenario's attributes `data-count="3"`, `data-label="hi"`. -/
def demoAttrs : List Attr :=
  [⟨"data-count", "3"⟩, ⟨"data-label", "hi"⟩]

/-- The end-to-end scenario's constructor override `{count: 5}`. -/
def demoOverride : JSObject :=
  [("count", JSValue.num 5)]

/-- The end-to-end scenario's expected resolution `{count: 5, label: 'hi', extra: 'z'}`. -/
def demoExpected : JSObject :=
  [("count", JSValue.num 5), ("label", JSValue.str "hi"), ("extra", JSValue.str "z")]

/-! ### Basic facts about object property access -/

/-- The first alternative that is present (how a later `objectAssign`
source shadows an earlier one, seen through lookup). -/
def keyOr {α : Type} : Option α → Option α → Option α
  | some v, _ => some v
  | none, b => b

theorem getEntry_setEntry_self {α : Type} (o : List (String × α)) (k : String) (v : α) :
    getEntry (setEntry o k v) k = some v := by
  induction o with
  | nil => simp [setEntry, getEntry]
  | cons p rest ih =>
      by_cases h : p.1 = k
      · simp [setEntry, getEntry, h]
      · simp [setEntry, getEntry, h, ih]

theorem getEntry_setEntry_ne {α : Type} (o : List (String × α)) (k k' : String) (v : α)
    (h : k' ≠ k) :
    getEntry (setEntry o k v) k' = getEntry o k' := by
  induction o with
  | nil => simp [setEntry, getEntry, Ne.symm h]
  | cons p rest ih =>
      by_cases hp : p.1 = k
      · subst hp
        simp [setEntry, getEntry, Ne.symm h]
      · by_cases hk' : p.1 = k'
        · simp [setEntry, getEntry, hp, hk', h]
        · simp [setEntry, getEntry, hp, hk', ih]

theorem getEntry_eq_none_of_not_mem {α : Type} (o : List (String × α)) (k : String)
    (h : k ∉ o.map Prod.fst) :
    getEntry o k = none := by
  induction o with
  | nil => rfl
  | cons p rest ih =>
      simp only [List.map_cons, List.mem_cons] at h
      push_neg at h
      simp [getEntry, Ne.symm h.1, ih h.2]

theorem getEntry_isSome_iff_mem {α : Type} (o : List (String × α)) (k : String) :
    (getEntry o k).isSome = true ↔ k ∈ o.map Prod.fst := by
  induction o with
  | nil => simp [getEntry]
  | cons p rest ih =>
      by_cases h : p.1 = k
      · simp [getEntry, h]
      · simp [getEntry, h, ih, Ne.symm h]

theorem keys_setEntry_mem {α : Type} (o : List (String × α)) (k : String) (v : α)
    (h : k ∈ o.map Prod.fst) :
    (setEntry o k v).map Prod.fst = o.map Prod.fst := by
  induction o with
  | nil => simp at h
  | cons p rest ih =>
      by_cases hp : p.1 = k
      · simp [setEntry, hp]
      · simp only [List.map_cons, List.mem_cons] at h
        rcases h with h | h
        · exact absurd h.symm hp
        · simp [setEntry, hp, ih h]

theorem keys_setEntry_not_mem {α : Type} (o : List (String × α)) (k : String) (v : α)
    (h : k ∉ o.map Prod.fst) :
    (setEntry o k v).map Prod.fst = o.map Prod.fst ++ [k] := by
  induction o with
  | nil => simp [setEntry]
  | cons p rest ih =>
      simp only [List.map_cons, List.mem_cons] at h
      push_neg at h
      simp [setEntry, Ne.symm h.1, ih h.2]

theorem nodupKeys_setEntry {α : Type} (o : List (String × α)) (k : String) (v : α)
    (h : NodupKeys o) : NodupKeys (setEntry o k v) := by
  by_cases hk : k ∈ o.map Prod.fst
  · unfold NodupKeys
    rw [keys_setEntry_mem o k v hk]
    exact h
  · unfold NodupKeys
    rw [keys_setEntry_not_mem o k v hk]
    rw [List.nodup_append]
    refine ⟨h, List.nodup_singleton k, ?_⟩
    intro a ha hb
    rcases List.mem_singleton.mp hb with rfl
    exact hk ha

theorem getEntry_assignPairs {α : Type} (t s : List (String × α)) (k : String)
    (hs : NodupKeys s) :
    getEntry (assignPairs t s) k = keyOr (getEntry s k) (getEntry t k) := by
  induction s generalizing t with
  | nil => simp [assignPairs, getEntry, keyOr]
  | cons q s' ih =>
      have hcons := List.nodup_cons.mp hs
      have hq : q.1 ∉ s'.map Prod.fst := hcons.1
      have hs' : NodupKeys s' := hcons.2
      rw [assignPairs, ih _ hs']
      by_cases h : k = q.1
      · subst h
        rw [getEntry_eq_none_of_not_mem s' q.1 hq, getEntry_setEntry_self]
        simp [getEntry, keyOr]
      · rw [getEntry_setEntry_ne t q.1 k q.2 h]
        simp [getEntry, keyOr, Ne.symm h]

theorem nodupKeys_assignPairs {α : Type} (t s : List (String × α)) (h : NodupKeys t) :
    NodupKeys (assignPairs t s) := by
  induction s generalizing t with
  | nil => exact h
  | cons q s' ih => exact ih _ (nodupKeys_setEntry t q.1 q.2 h)

theorem nodupKeys_domDataFrom (acc : JSObject) (attrs : List Attr) (h : NodupKeys acc) :
    NodupKeys (domDataFrom acc attrs) := by
  induction attrs generalizing acc with
  | nil => exact h
  | cons a rest ih =>
      rw [domDataFrom]
      by_cases ha : isDataAttr a.name
      · simp only [ha, if_true]
        exact ih _ (nodupKeys_setEntry acc (camelKey a) (JSValue.str a.value) h)
      · simp only [ha, if_false]
        exact ih _ h

theorem nodupKeys_domData (attrs : List Attr) : NodupKeys (domData attrs) :=
  nodupKeys_domDataFrom [] attrs (by simp [NodupKeys])

theorem resolveConfig_some_eq (D : JSObject) (attrs : List Attr) (O : JSObject) :
    resolveConfig D attrs (some O) = assignPairs (assignPairs D (domData attrs)) O := rfl

theorem mkComponent_data (el : List Attr) (od : Option JSObject) (D : JSObject)
    (m : Option Nat) (s : Nat) :
    (mkComponent el od D m s).data = some (resolveConfig D el od) := rfl

/-- C1: the configuration resolved at construction is the defaults
overlaid by the DOM `data-` attributes overlaid by the constructor
override, the later source winning on every key collision; a key present
in the override always resolves to the override's value, and the spec's
end-to-end scenario resolves to `{count: 5, label: 'hi', extra: 'z'}`. -/
theorem resolveConfig_merge_spec (D : JSObject) (attrs : List Attr) (O : JSObject)
    (hO : NodupKeys O) :
    (∀ k, getEntry (resolveConfig D attrs (some O)) k
        = keyOr (getEntry O k) (keyOr (getEntry (domData attrs) k) (getEntry D k))) ∧
    (∀ k v, getEntry O k = some v → getEntry (resolveConfig D attrs (some O)) k = some v) ∧
    (mkComponent demoAttrs (some demoOverride) demoDefaults none 0).data = some demoExpected := by
  have hchar : ∀ k, getEntry (resolveConfig D attrs (some O)) k
      = keyOr (getEntry O k) (keyOr (getEntry (domData attrs) k) (getEntry D k)) := by
    intro k
    rw [resolveConfig_some_eq, getEntry_assignPairs _ _ _ hO,
      getEntry_assignPairs _ _ _ (nodupKeys_domData attrs)]
  refine ⟨hchar, ?_, ?_⟩
  · intro k v hv
    rw [hchar k, hv]
    rfl
  · decide

/-- Witness for C1 at the spec's end-to-end scenario inputs. -/
theorem resolveConfig_merge_spec_witness :
    NodupKeys demoOverride ∧
    ((∀ k, getEntry (resolveConfig demoDefaults demoAttrs (some demoOverride)) k
        = keyOr (getEntry demoOverride k)
            (keyOr (getEntry (domData demoAttrs) k) (getEntry demoDefaults k))) ∧
    (∀ k v, getEntry demoOverride k = some v →
        getEntry (resolveConfig demoDefaults demoAttrs (some demoOverride)) k = some v) ∧
    (mkComponent demoAttrs (some demoOverride) demoDefaults none 0).data = some demoExpected) :=
  ⟨by decide, resolveConfig_merge_spec demoDefaults demoAttrs demoOverride (by decide)⟩

/-! ### The DOM attribute scan -/

theorem getEntry_domDataFrom_origin (attrs : List Attr) :
    ∀ (acc : JSObject) (k : String) (v : JSValue),
      getEntry (domDataFrom acc attrs) k = some v →
      getEntry acc k = some v ∨
        ∃ a, a ∈ attrs ∧ isDataAttr a.name = true ∧ camelKey a = k ∧ v = JSValue.str a.value := by
  induction attrs with
  | nil => intro acc k v h; exact Or.inl h
  | cons a rest ih =>
      intro acc k v h
      rw [domDataFrom] at h
      by_cases ha : isDataAttr a.name
      · simp only [ha, if_true] at h
        rcases ih _ _ _ h with hacc | ⟨b, hb, hdata, hkey, hval⟩
        · by_cases hk : camelKey a = k
          · subst hk
            rw [getEntry_setEntry_self] at hacc
            exact Or.inr ⟨a, List.mem_cons_self a rest, ha, rfl, (Option.some_inj.mp hacc).symm⟩
          · rw [getEntry_setEntry_ne acc (camelKey a) k (JSValue.str a.value) (Ne.symm hk)] at hacc
            exact Or.inl hacc
        · exact Or.inr ⟨b, List.mem_cons_of_mem a hb, hdata, hkey, hval⟩
      · simp only [ha, if_false] at h
        rcases ih _ _ _ h with hacc | ⟨b, hb, hdata, hkey, hval⟩
        · exact Or.inl hacc
        · exact Or.inr ⟨b, List.mem_cons_of_mem a hb, hdata, hkey, hval⟩

theorem getEntry_domDataFrom_isSome_mono (attrs : List Attr) :
    ∀ (acc : JSObject) (k : String),
      (getEntry acc k).isSome = true →
      (getEntry (domDataFrom acc attrs) k).isSome = true := by
  induction attrs with
  | nil => intro acc k h; exact h
  | cons a rest ih =>
      intro acc k h
      rw [domDataFrom]
      by_cases ha : isDataAttr a.name
      · simp only [ha, if_true]
        refine ih _ _ ?_
        by_cases hk : camelKey a = k
        · subst hk; rw [getEntry_setEntry_self]; rfl
        · rw [getEntry_setEntry_ne acc (camelKey a) k (JSValue.str a.value) (Ne.symm hk)]
          exact h
      · simp only [ha, if_false]
        exact ih _ _ h

theorem getEntry_domDataFrom_present (attrs : List Attr) :
    ∀ (acc : JSObject) (a : Attr), a ∈ attrs → isDataAttr a.name = true →
      (getEntry (domDataFrom acc attrs) (camelKey a)).isSome = true := by
  induction attrs with
  | nil => intro acc a ha; exact absurd ha (List.not_mem_nil a)
  | cons b rest ih =>
      intro acc a ha hdata
      rcases List.mem_cons.mp ha with rfl | ha'
      · rw [domDataFrom]
        simp only [hdata, if_true]
        refine getEntry_domDataFrom_isSome_mono rest _ _ ?_
        rw [getEntry_setEntry_self]; rfl
      · rw [domDataFrom]
        by_cases hb : isDataAttr b.name
        · simp only [hb, if_true]; exact ih _ a ha' hdata
        · simp only [hb, if_false]; exact ih _ a ha' hdata

theorem getEntry_domDataFrom_untouched (attrs : List Attr) :
    ∀ (acc : JSObject) (k : String),
      (∀ b ∈ attrs, ¬(isDataAttr b.name = true ∧ camelKey b = k)) →
      getEntry (domDataFrom acc attrs) k = getEntry acc k := by
  induction attrs with
  | nil => intro acc k _; rfl
  | cons b rest ih =>
      intro acc k hnone
      rw [domDataFrom]
      by_cases hb : isDataAttr b.name
      · simp only [hb, if_true]
        have hk : camelKey b ≠ k := fun h => hnone b (List.mem_cons_self b rest) ⟨hb, h⟩
        rw [ih _ _ fun b' hb' => hnone b' (List.mem_cons_of_mem b hb')]
        exact getEntry_setEntry_ne acc (camelKey b) k (JSValue.str b.value) (Ne.symm hk)
      · simp only [hb, if_false]
        exact ih _ _ fun b' hb' => hnone b' (List.mem_cons_of_mem b hb')

theorem getEntry_domDataFrom_inj (attrs : List Attr)
    (hinj : ∀ a ∈ attrs, ∀ b ∈ attrs, isDataAttr a.name = true → isDataAttr b.name = true →
      camelKey a = camelKey b → a = b) :
    ∀ (acc : JSObject) (a : Attr), a ∈ attrs → isDataAttr a.name = true →
      getEntry (domDataFrom acc attrs) (camelKey a) = some (JSValue.str a.value) := by
  induction attrs with
  | nil => intro acc a ha; exact absurd ha (List.not_mem_nil a)
  | cons b rest ih =>
      have hinj' : ∀ a ∈ rest, ∀ b ∈ rest, isDataAttr a.name = true → isDataAttr b.name = true →
          camelKey a = camelKey b → a = b :=
        fun x hx y hy => hinj x (List.mem_cons_of_mem b hx) y (List.mem_cons_of_mem b hy)
      intro acc a ha hdata
      rcases List.mem_cons.mp ha with rfl | ha'
      · rw [domDataFrom]
        simp only [hdata, if_true]
        by_cases har : a ∈ rest
        · exact ih hinj' _ a har hdata
        · have hnone : ∀ b' ∈ rest, ¬(isDataAttr b'.name = true ∧ camelKey b' = camelKey a) := by
            intro b' hb' ⟨hd', hk'⟩
            exact har (hinj b' (List.mem_cons_of_mem a hb') a (List.mem_cons_self a rest)
              hd' hdata hk' ▸ hb')
          rw [getEntry_domDataFrom_untouched rest _ _ hnone]
          exact getEntry_setEntry_self acc (camelKey a) (JSValue.str a.value)
      · rw [domDataFrom]
        by_cases hb : isDataAttr b.name
        · simp only [hb, if_true]; exact ih hinj' _ a ha' hdata
        · simp only [hb, if_false]; exact ih hinj' _ a ha' hdata

/-- C3: an attribute of the bound node contributes a configuration entry
iff its name starts with `data-`; the entry's key is the name with the
prefix stripped and each hyphen-letter pair camel-cased, its value is the
attribute's literal string; an empty attribute value resolves to the
empty string and still overwrites a same-named default. -/
theorem domData_attr_spec (attrs : List Attr)
    (hinj : ∀ a ∈ attrs, ∀ b ∈ attrs, isDataAttr a.name = true → isDataAttr b.name = true →
      camelKey a = camelKey b → a = b) :
    (∀ k, (getEntry (domData attrs) k).isSome = true
        ↔ ∃ a, a ∈ attrs ∧ isDataAttr a.name = true ∧ camelKey a = k) ∧
    (∀ a ∈ attrs, isDataAttr a.name = true →
        getEntry (domData attrs) (camelKey a) = some (JSValue.str a.value)) ∧
    (∀ k v, getEntry (domData attrs) k = some v →
        ∃ a, a ∈ attrs ∧ isDataAttr a.name = true ∧ camelKey a = k ∧ v = JSValue.str a.value) ∧
    camelKey ⟨"data-my-param", "x"⟩ = "myParam" ∧
    camelKey ⟨"data-a-b", "1"⟩ = "aB" ∧
    (∀ (D : JSObject) (a : Attr), isDataAttr a.name = true → a.value = "" →
        getEntry (resolveConfig D [a] none) (camelKey a) = some (JSValue.str "")) := by
  refine ⟨?_, ?_, ?_, by decide, by decide, ?_⟩
  · intro k
    constructor
    · intro h
      rcases Option.isSome_iff_exists.mp h with ⟨v, hv⟩
      rcases getEntry_domDataFrom_origin attrs [] k v hv with hacc | ⟨a, ha, hdata, hkey, _⟩
      · exact absurd hacc (by simp [getEntry])
      · exact ⟨a, ha, hdata, hkey⟩
    · rintro ⟨a, ha, hdata, rfl⟩
      exact getEntry_domDataFrom_present attrs [] a ha hdata
  · intro a ha hdata
    exact getEntry_domDataFrom_inj attrs hinj [] a ha hdata
  · intro k v hv
    rcases getEntry_domDataFrom_origin attrs [] k v hv with hacc | h
    · exact absurd hacc (by simp [getEntry])
    · exact h
  · intro D a hdata hval
    show getEntry (assignPairs D (domData [a])) (camelKey a) = some (JSValue.str "")
    have hd : domData [a] = [(camelKey a, JSValue.str a.value)] := by
      simp [domData, domDataFrom, hdata, setEntry]
    rw [hd, hval]
    show getEntry (setEntry D (camelKey a) (JSValue.str "")) (camelKey a) = some (JSValue.str "")
    exact getEntry_setEntry_self D (camelKey a) (JSValue.str "")

/-- Witness for C3 at the end-to-end scenario's attribute list. -/
theorem domData_attr_spec_witness :
    (∀ a ∈ demoAttrs, ∀ b ∈ demoAttrs, isDataAttr a.name = true → isDataAttr b.name = true →
      camelKey a = camelKey b → a = b) ∧
    (∀ a ∈ demoAttrs, isDataAttr a.name = true →
        getEntry (domData demoAttrs) (camelKey a) = some (JSValue.str a.value)) :=
  ⟨by decide, (domData_attr_spec demoAttrs (by decide)).2.1⟩

/-! ### Method binding -/

/-- C2: if a name passed to `bind` does not denote a callable member of
the instance, the whole call fails at the point of binding with the
`InvalidMethodName` error, which propagates to the caller; no name is
silently skipped. -/
theorem bind_invalid_method (inst : JSInstance) (names : List String) (n : String)
    (hmem : n ∈ names)
    (hnc : ∀ f : JSFunc, getEntry inst.members n ≠ some (JSMember.func f)) :
    JSInstance.bind inst names = Except.error InvalidMethodName := by
  induction names generalizing inst with
  | nil => exact absurd hmem (List.not_mem_nil n)
  | cons m rest ih =>
      rw [JSInstance.bind]
      cases hm : getEntry inst.members m with
      | none => rfl
      | some mem =>
          cases mem with
          | prim v => rfl
          | func f =>
              by_cases heq : m = n
              · subst heq
                exact absurd hm (hnc f)
              · have hmem' : n ∈ rest := by
                  rcases List.mem_cons.mp hmem with rfl | h
                  · exact absurd rfl heq
                  · exact h
                refine ih ⟨inst.self, setEntry inst.members m (JSMember.func (fbind f inst.self))⟩
                  hmem' ?_
                intro f' hf'
                rw [getEntry_setEntry_ne inst.members m n (JSMember.func (fbind f inst.self))
                  (Ne.symm heq)] at hf'
                exact hnc f' hf'

/-- Witness for C2: `bind("missing")` on an instance with no member
named `missing`. -/
theorem bind_invalid_method_witness :
    ("missing" ∈ ["missing"]) ∧
    (∀ f : JSFunc, getEntry ([] : List (String × JSMember)) "missing"
        ≠ some (JSMember.func f)) ∧
    JSInstance.bind ⟨0, []⟩ ["missing"] = Except.error InvalidMethodName :=
  ⟨by simp, fun f h => Option.noConfusion h,
    bind_invalid_method ⟨0, []⟩ ["missing"] "missing" (by simp)
      (fun f h => Option.noConfusion h)⟩

theorem bind_preserves_other (names : List String) :
    ∀ (inst inst' : JSInstance) (m : String),
      JSInstance.bind inst names = Except.ok inst' → m ∉ names →
      getEntry inst'.members m = getEntry inst.members m ∧ inst'.self = inst.self := by
  induction names with
  | nil =>
      intro inst inst' m h _
      rw [JSInstance.bind] at h
      cases h
      exact ⟨rfl, rfl⟩
  | cons n rest ih =>
      intro inst inst' m h hm
      rw [JSInstance.bind] at h
      cases hn : getEntry inst.members n with
      | none => rw [hn] at h; cases h
      | some mem =>
          cases mem with
          | prim v => rw [hn] at h; cases h
          | func f =>
              rw [hn] at h
              have hm1 : m ≠ n := fun hmn => hm (hmn ▸ List.mem_cons_self n rest)
              have hm2 : m ∉ rest := fun hmr => hm (List.mem_cons_of_mem n hmr)
              rcases ih _ _ m h hm2 with ⟨hget, hself⟩
              refine ⟨?_, hself⟩
              rw [hget]
              exact getEntry_setEntry_ne inst.members n m (JSMember.func (fbind f inst.self)) hm1

theorem bind_rebinds_aux (names : List String) :
    ∀ (inst : JSInstance),
      (∀ n ∈ names, ∃ f : JSFunc, getEntry inst.members n = some (JSMember.func f) ∧
        (f.boundThis = none ∨ f.boundThis = some inst.self)) →
      ∃ inst', JSInstance.bind inst names = Except.ok inst' ∧ inst'.self = inst.self ∧
        ∀ n ∈ names, ∃ f' : JSFunc, getEntry inst'.members n = some (JSMember.func f') ∧
          f'.boundThis = some inst.self := by
  induction names with
  | nil =>
      intro inst _
      exact ⟨inst, rfl, rfl, fun n hn => absurd hn (List.not_mem_nil n)⟩
  | cons n rest ih =>
      intro inst h
      rcases h n (List.mem_cons_self n rest) with ⟨f, hf, hb⟩
      have hfb : fbind f inst.self = ⟨f.code, some inst.self⟩ := by
        rcases hb with hb | hb
        · cases f
          simp only at hb
          subst hb
          rfl
        · cases f
          simp only at hb
          subst hb
          rfl
      rw [JSInstance.bind, hf]
      set inst₂ : JSInstance :=
        ⟨inst.self, setEntry inst.members n (JSMember.func (fbind f inst.self))⟩ with hinst₂
      have h₂ : ∀ m ∈ rest, ∃ g : JSFunc, getEntry inst₂.members m = some (JSMember.func g) ∧
          (g.boundThis = none ∨ g.boundThis = some inst₂.self) := by
        intro m hm
        by_cases hmn : m = n
        · subst hmn
          refine ⟨⟨f.code, some inst.self⟩, ?_, Or.inr rfl⟩
          show getEntry (setEntry inst.members m (JSMember.func (fbind f inst.self))) m = _
          rw [hfb]
          exact getEntry_setEntry_self inst.members m (JSMember.func ⟨f.code, some inst.self⟩)
        · rcases h m (List.mem_cons_of_mem n hm) with ⟨g, hg, hgb⟩
          refine ⟨g, ?_, hgb⟩
          show getEntry (setEntry inst.members n (JSMember.func (fbind f inst.self))) m = _
          rw [getEntry_setEntry_ne inst.members n m (JSMember.func (fbind f inst.self)) hmn]
          exact hg
      rcases ih inst₂ h₂ with ⟨inst', hok, hself, hall⟩
      refine ⟨inst', hok, hself, ?_⟩
      intro m hm
      rcases List.mem_cons.mp hm with rfl | hmr
      · by_cases hmrest : m ∈ rest
        · rcases hall m hmrest with ⟨g, hg, hgb⟩
          exact ⟨g, hg, by rw [hgb]⟩
        · rcases bind_preserves_other rest inst₂ inst' m hok hmrest with ⟨hget, _⟩
          refine ⟨⟨f.code, some inst.self⟩, ?_, rfl⟩
          rw [hget]
          show getEntry (setEntry inst.members m (JSMember.func (fbind f inst.self))) m = _
          rw [hfb]
          exact getEntry_setEntry_self inst.members m (JSMember.func ⟨f.code, some inst.self⟩)
      · rcases hall m hmr with ⟨g, hg, hgb⟩
        exact ⟨g, hg, by rw [hgb]⟩

/-- C4 counterexample: a callable member that is already a bound function
(receiver 1) is not re-targeted by `bind` on the instance with identity
0 — invoked detached it still runs with `this` = 1, not the instance. -/
theorem bind_already_bound_cex :
    JSInstance.bind ⟨0, [("foo", JSMember.func ⟨7, some 1⟩)]⟩ ["foo"]
        = Except.ok ⟨0, [("foo", JSMember.func ⟨7, some 1⟩)]⟩ ∧
    thisArg ⟨7, some 1⟩ none = some 1 ∧ (some 1 : Option Nat) ≠ some 0 :=
  ⟨rfl, rfl, by decide⟩

/-- C4 (amended): on an instance whose named members are callable and not
already bound to a different receiver (ordinary unbound methods, or ones
already bound to this very instance), `bind` succeeds and rebinds each
named member in place so that invoking it detached — without a receiver —
still executes with the instance as its `this` context. -/
theorem bind_rebinds_to_instance (inst : JSInstance) (names : List String)
    (h : ∀ n ∈ names, ∃ f : JSFunc, getEntry inst.members n = some (JSMember.func f) ∧
      (f.boundThis = none ∨ f.boundThis = some inst.self)) :
    ∃ inst', JSInstance.bind inst names = Except.ok inst' ∧ inst'.self = inst.self ∧
      ∀ n ∈ names, ∃ f' : JSFunc, getEntry inst'.members n = some (JSMember.func f') ∧
        thisArg f' none = some inst.self := by
  rcases bind_rebinds_aux names inst h with ⟨inst', hok, hself, hall⟩
  refine ⟨inst', hok, hself, ?_⟩
  intro n hn
  rcases hall n hn with ⟨f', hget, hb⟩
  exact ⟨f', hget, by rw [thisArg, hb]⟩

/-- Witness for C4's amended claim: `bind("foo","bar")` on an instance
with ordinary methods `foo` and `bar`. -/
theorem bind_rebinds_to_instance_witness :
    (∀ n ∈ (["foo", "bar"] : List String), ∃ f : JSFunc,
        getEntry ([("foo", JSMember.func ⟨1, none⟩), ("bar", JSMember.func ⟨2, none⟩)]
            : List (String × JSMember)) n
          = some (JSMember.func f) ∧ (f.boundThis = none ∨ f.boundThis = some 3)) ∧
    (∃ inst', JSInstance.bind
        ⟨3, [("foo", JSMember.func ⟨1, none⟩), ("bar", JSMember.func ⟨2, none⟩)]⟩
        ["foo", "bar"] = Except.ok inst' ∧ inst'.self = 3 ∧
      ∀ n ∈ (["foo", "bar"] : List String), ∃ f' : JSFunc,
        getEntry inst'.members n = some (JSMember.func f') ∧ thisArg f' none = some 3) := by
  have hh : ∀ n ∈ (["foo", "bar"] : List String), ∃ f : JSFunc,
      getEntry ([("foo", JSMember.func ⟨1, none⟩), ("bar", JSMember.func ⟨2, none⟩)]
          : List (String × JSMember)) n
        = some (JSMember.func f) ∧ (f.boundThis = none ∨ f.boundThis = some 3) := by
    intro n hn
    rcases List.mem_cons.mp hn with rfl | hn'
    · exact ⟨⟨1, none⟩, rfl, Or.inl rfl⟩
    · rcases List.mem_cons.mp hn' with rfl | hn''
      · exact ⟨⟨2, none⟩, by decide, Or.inl rfl⟩
      · exact absurd hn'' (List.not_mem_nil n)
  exact ⟨hh, bind_rebinds_to_instance
    ⟨3, [("foo", JSMember.func ⟨1, none⟩), ("bar", JSMember.func ⟨2, none⟩)]⟩
    ["foo", "bar"] hh⟩

/-! ### Mediator delegation -/

theorem domDataFrom_no_data (attrs : List Attr) :
    ∀ acc : JSObject, (∀ a ∈ attrs, isDataAttr a.name = false) → domDataFrom acc attrs = acc := by
  induction attrs with
  | nil => intro acc _; rfl
  | cons a rest ih =>
      intro acc h
      rw [domDataFrom]
      have ha : isDataAttr a.name = false := h a (List.mem_cons_self a rest)
      simp only [ha, Bool.false_eq_true, if_false]
      exact ih acc fun b hb => h b (List.mem_cons_of_mem a hb)

/-- C5: `subscribe` and `unsubscribe` each invoke the mediator exactly
once with exactly `(topic, callback, instance)`, the instance as owner;
the mediator deregistration of a never-registered callback is a no-op,
not an error, and is still invoked with the matching owner. -/
theorem subscribe_unsubscribe_delegate (c : Component) (m : Nat) (topic : String) (cb : Nat)
    (regs : List Registration) (hm : c.mediator = some m)
    (hreg : Registration.mk topic cb c.self ∉ regs) :
    Component.subscribe c topic cb = Except.ok (c, [MCall.subscribe m topic cb c.self]) ∧
    Component.unsubscribe c topic cb = Except.ok (c, [MCall.unsubscribe m topic cb c.self]) ∧
    mediatorUnsubscribe regs topic cb c.self = regs := by
  refine ⟨by simp [Component.subscribe, hm], by simp [Component.unsubscribe, hm], ?_⟩
  rw [mediatorUnsubscribe, List.filter_eq_self]
  intro r hr
  cases r with
  | mk rt rc ro =>
      simp only [Bool.not_eq_true', Bool.and_eq_false_iff, beq_eq_false_iff_ne, ne_eq]
      by_contra hcon
      push_neg at hcon
      rcases hcon with ⟨⟨h1, h2⟩, h3⟩
      subst h1; subst h2; subst h3
      exact hreg hr

/-- Witness for C5 on a concrete instance and registration set that does
not contain the pair being unsubscribed. -/
theorem subscribe_unsubscribe_delegate_witness :
    ((⟨[], none, [], some 2, 9⟩ : Component).mediator = some 2) ∧
    ((⟨"t", 4, 9⟩ : Registration) ∉ [(⟨"u", 4, 9⟩ : Registration), ⟨"t", 4, 8⟩]) ∧
    (Component.subscribe ⟨[], none, [], some 2, 9⟩ "t" 4
        = Except.ok (⟨[], none, [], some 2, 9⟩, [MCall.subscribe 2 "t" 4 9]) ∧
     Component.unsubscribe ⟨[], none, [], some 2, 9⟩ "t" 4
        = Except.ok (⟨[], none, [], some 2, 9⟩, [MCall.unsubscribe 2 "t" 4 9]) ∧
     mediatorUnsubscribe [(⟨"u", 4, 9⟩ : Registration), ⟨"t", 4, 8⟩] "t" 4 9
        = [(⟨"u", 4, 9⟩ : Registration), ⟨"t", 4, 8⟩]) :=
  ⟨rfl, by decide,
    subscribe_unsubscribe_delegate ⟨[], none, [], some 2, 9⟩ 2 "t" 4
      [⟨"u", 4, 9⟩, ⟨"t", 4, 8⟩] rfl (by decide)⟩

/-- C6: `publish` forwards exactly its argument list — topic first, then
the additional arguments in original order, none dropped — to the
mediator's publish capability, and performs no local state change on the
instance. -/
theorem publish_forwards_args (c : Component) (m : Nat) (args : List JSValue)
    (hm : c.mediator = some m) :
    Component.publish c args = Except.ok (c, [MCall.publish m args]) := by
  simp [Component.publish, hm]

/-- Witness for C6 on a concrete instance and argument list. -/
theorem publish_forwards_args_witness :
    ((⟨[], none, [], some 1, 0⟩ : Component).mediator = some 1) ∧
    Component.publish ⟨[], none, [], some 1, 0⟩ [JSValue.str "topic", JSValue.num 2]
      = Except.ok (⟨[], none, [], some 1, 0⟩,
          [MCall.publish 1 [JSValue.str "topic", JSValue.num 2]]) :=
  ⟨rfl, publish_forwards_args ⟨[], none, [], some 1, 0⟩ 1
    [JSValue.str "topic", JSValue.num 2] rfl⟩

/-- C9: each delegation method — publish, subscribe, unsubscribe, scan —
makes exactly one call to the corresponding mediator capability and
returns the instance with every field (node, resolved data, mediator
identity) unchanged; `scan` passes its optional data argument through
unchanged with no local effect. -/
theorem delegation_frame (c : Component) (m : Nat) (args : List JSValue) (topic : String)
    (cb : Nat) (d : Option JSObject) (hm : c.mediator = some m) :
    Component.publish c args = Except.ok (c, [MCall.publish m args]) ∧
    Component.subscribe c topic cb = Except.ok (c, [MCall.subscribe m topic cb c.self]) ∧
    Component.unsubscribe c topic cb = Except.ok (c, [MCall.unsubscribe m topic cb c.self]) ∧
    Component.scan c d = Except.ok (c, [MCall.scan m d]) := by
  refine ⟨?_, ?_, ?_, ?_⟩ <;>
    simp [Component.publish, Component.subscribe, Component.unsubscribe, Component.scan, hm]

/-- Witness for C9 on a concrete instance. -/
theorem delegation_frame_witness :
    ((⟨demoAttrs, some demoExpected, demoDefaults, some 5, 3⟩ : Component).mediator = some 5) ∧
    (Component.publish ⟨demoAttrs, some demoExpected, demoDefaults, some 5, 3⟩ [JSValue.num 0]
        = Except.ok (⟨demoAttrs, some demoExpected, demoDefaults, some 5, 3⟩,
            [MCall.publish 5 [JSValue.num 0]]) ∧
     Component.subscribe ⟨demoAttrs, some demoExpected, demoDefaults, some 5, 3⟩ "t" 7
        = Except.ok (⟨demoAttrs, some demoExpected, demoDefaults, some 5, 3⟩,
            [MCall.subscribe 5 "t" 7 3]) ∧
     Component.unsubscribe ⟨demoAttrs, some demoExpected, demoDefaults, some 5, 3⟩ "t" 7
        = Except.ok (⟨demoAttrs, some demoExpected, demoDefaults, some 5, 3⟩,
            [MCall.unsubscribe 5 "t" 7 3]) ∧
     Component.scan ⟨demoAttrs, some demoExpected, demoDefaults, some 5, 3⟩ (some demoOverride)
        = Except.ok (⟨demoAttrs, some demoExpected, demoDefaults, some 5, 3⟩,
            [MCall.scan 5 (some demoOverride)])) :=
  ⟨rfl, delegation_frame ⟨demoAttrs, some demoExpected, demoDefaults, some 5, 3⟩ 5
    [JSValue.num 0] "t" 7 (some demoOverride) rfl⟩

/-- C7: construction is total here — no error arises when the bound node
has no `data-` attributes or when the override argument is absent; an
absent override behaves as an empty mapping, so the resolved
configuration is exactly the defaults overlaid by the DOM attribute
entries (and exactly the defaults when there are no `data-` attributes). -/
theorem construct_absent_override (defaults : JSObject) (attrs : List Attr)
    (mediator : Option Nat) (selfId : Nat) :
    (mkComponent attrs none defaults mediator selfId).data
        = some (assignPairs defaults (domData attrs)) ∧
    resolveConfig defaults attrs none = resolveConfig defaults attrs (some []) ∧
    ((∀ a ∈ attrs, isDataAttr a.name = false) →
      (mkComponent attrs none defaults mediator selfId).data = some defaults) := by
  refine ⟨rfl, rfl, ?_⟩
  intro h
  show some (objectAssign defaults [some (domData attrs), none]) = some defaults
  rw [domData, domDataFrom_no_data attrs [] h]
  rfl

/-- Witness for C7 on a node whose only attribute is not a `data-`
attribute. -/
theorem construct_absent_override_witness :
    (∀ a ∈ ([⟨"id", "x"⟩] : List Attr), isDataAttr a.name = false) ∧
    (mkComponent [⟨"id", "x"⟩] none demoDefaults none 0).data = some demoDefaults :=
  ⟨by decide, (construct_absent_override demoDefaults [⟨"id", "x"⟩] none 0).2.2 (by decide)⟩

/-! ### Idempotence of configuration resolution -/

theorem setEntry_cons_ne {α : Type} (p : String × α) (t : List (String × α)) (k : String)
    (v : α) (h : p.1 ≠ k) : setEntry (p :: t) k v = p :: setEntry t k v := by
  simp [setEntry, h]

theorem setEntry_not_mem_append {α : Type} (t : List (String × α)) (k : String) (v : α)
    (h : k ∉ t.map Prod.fst) : setEntry t k v = t ++ [(k, v)] := by
  induction t with
  | nil => rfl
  | cons p t' ih =>
      simp only [List.map_cons, List.mem_cons] at h
      push_neg at h
      rw [setEntry_cons_ne p t' k v (Ne.symm h.1), ih h.2]
      rfl

theorem assignPairs_cons_factor {α : Type} (s : List (String × α)) :
    ∀ (p : String × α) (t : List (String × α)), (∀ q ∈ s, q.1 ≠ p.1) →
      assignPairs (p :: t) s = p :: assignPairs t s := by
  induction s with
  | nil => intro p t _; rfl
  | cons q s' ih =>
      intro p t h
      rw [assignPairs,
        setEntry_cons_ne p t q.1 q.2 (Ne.symm (h q (List.mem_cons_self q s'))),
        ih p (setEntry t q.1 q.2) fun r hr => h r (List.mem_cons_of_mem q hr)]
      rfl

theorem assignPairs_append {α : Type} (s₁ s₂ t : List (String × α)) :
    assignPairs t (s₁ ++ s₂) = assignPairs (assignPairs t s₁) s₂ := by
  induction s₁ generalizing t with
  | nil => rfl
  | cons q s' ih => rw [List.cons_append, assignPairs, assignPairs, ih]

theorem keys_assignPairs {α : Type} (s : List (String × α)) :
    ∀ t : List (String × α), ∃ ext, (assignPairs t s).map Prod.fst = t.map Prod.fst ++ ext := by
  induction s with
  | nil => intro t; exact ⟨[], by simp [assignPairs]⟩
  | cons q s' ih =>
      intro t
      by_cases hq : q.1 ∈ t.map Prod.fst
      · rcases ih (setEntry t q.1 q.2) with ⟨ext, hext⟩
        refine ⟨ext, ?_⟩
        rw [assignPairs, hext, keys_setEntry_mem t q.1 q.2 hq]
      · rcases ih (setEntry t q.1 q.2) with ⟨ext, hext⟩
        refine ⟨q.1 :: ext, ?_⟩
        rw [assignPairs, hext, keys_setEntry_not_mem t q.1 q.2 hq]
        simp

theorem assignPairs_replace_values {α : Type} (t : List (String × α)) :
    ∀ s : List (String × α), s.map Prod.fst = t.map Prod.fst → NodupKeys t →
      assignPairs t s = s := by
  induction t with
  | nil =>
      intro s hs _
      cases s with
      | nil => rfl
      | cons q s' => simp at hs
  | cons p t' ih =>
      intro s hs hnd
      cases s with
      | nil => simp at hs
      | cons q s' =>
          simp only [List.map_cons, List.cons.injEq] at hs
          obtain ⟨hq, hs'⟩ := hs
          have hnd2 : (p.1 :: t'.map Prod.fst).Nodup := by
            simpa [NodupKeys] using hnd
          have hnd' := List.nodup_cons.mp hnd2
          rw [assignPairs]
          have hset : setEntry (p :: t') q.1 q.2 = (q.1, q.2) :: t' := by
            simp [setEntry, hq.symm]
          rw [hset]
          have hfac : assignPairs ((q.1, q.2) :: t') s' = (q.1, q.2) :: assignPairs t' s' := by
            apply assignPairs_cons_factor
            intro r hr he
            have hrk : r.1 ∈ s'.map Prod.fst := List.mem_map_of_mem Prod.fst hr
            rw [hs'] at hrk
            exact hnd'.1 (by rw [← hq, ← he]; exact hrk)
          rw [hfac, ih s' hs' (by simpa [NodupKeys] using hnd'.2)]

theorem assignPairs_append_disjoint {α : Type} (s : List (String × α)) :
    ∀ t : List (String × α), (∀ q ∈ s, q.1 ∉ t.map Prod.fst) → NodupKeys s →
      assignPairs t s = t ++ s := by
  induction s with
  | nil => intro t _ _; simp [assignPairs]
  | cons q s' ih =>
      intro t hdis hnd
      have hq : q.1 ∉ t.map Prod.fst := hdis q (List.mem_cons_self q s')
      have hnd2 : (q.1 :: s'.map Prod.fst).Nodup := by
        simpa [NodupKeys] using hnd
      have hnd' := List.nodup_cons.mp hnd2
      rw [assignPairs]
      have hset : setEntry t q.1 q.2 = t ++ [(q.1, q.2)] := setEntry_not_mem_append t q.1 q.2 hq
      rw [hset]
      have hstep : assignPairs (t ++ [(q.1, q.2)]) s' = (t ++ [(q.1, q.2)]) ++ s' := by
        apply ih
        · intro r hr
          simp only [List.map_append, List.mem_append, List.map_cons, List.map_nil,
            List.mem_singleton, not_or]
          refine ⟨hdis r (List.mem_cons_of_mem q hr), ?_⟩
          intro he
          exact hnd'.1 (he ▸ List.mem_map_of_mem Prod.fst hr)
        · simpa [NodupKeys] using hnd'.2
      rw [hstep]
      cases q
      simp

theorem assignPairs_absorb {α : Type} (t x : List (String × α)) (hnd : NodupKeys t)
    (hx : ∃ ext, x.map Prod.fst = t.map Prod.fst ++ ext) (hxnd : NodupKeys x) :
    assignPairs t x = x := by
  obtain ⟨ext, hkeys⟩ := hx
  have hx12 : x = x.take t.length ++ x.drop t.length := (List.take_append_drop t.length x).symm
  have hlen : t.length = (t.map Prod.fst).length := (List.length_map t Prod.fst).symm
  have hkeys1 : (x.take t.length).map Prod.fst = t.map Prod.fst := by
    rw [List.map_take, hkeys, hlen, List.take_left]
  have hkeys2 : (x.drop t.length).map Prod.fst = ext := by
    rw [List.map_drop, hkeys, hlen, List.drop_left]
  have hxnd2 : ((x.take t.length).map Prod.fst ++ (x.drop t.length).map Prod.fst).Nodup := by
    rw [← List.map_append, ← hx12]
    simpa [NodupKeys] using hxnd
  have hsplit := List.nodup_append.mp hxnd2
  calc assignPairs t x
      = assignPairs t (x.take t.length ++ x.drop t.length) := by rw [← hx12]
    _ = assignPairs (assignPairs t (x.take t.length)) (x.drop t.length) :=
        assignPairs_append _ _ _
    _ = assignPairs (x.take t.length) (x.drop t.length) := by
        rw [assignPairs_replace_values t (x.take t.length) hkeys1 hnd]
    _ = x.take t.length ++ x.drop t.length := by
        apply assignPairs_append_disjoint
        · intro q hq hqmem
          exact hsplit.2.2 hqmem (List.mem_map_of_mem Prod.fst hq)
        · show ((x.drop t.length).map Prod.fst).Nodup
          exact hsplit.2.1
    _ = x := by rw [← hx12]

/-- C8: configuration resolution is a pure function of its three inputs
(defaults, node attributes, constructor data) — two instances agreeing on
those resolve identically, whatever their mediator or identity — and
running `_configureData` a second time on the same instance leaves the
resolved object unchanged, byte for byte (same entries in the same
order). -/
theorem configureData_idempotent (c c' : Component) (hD : NodupKeys c.defaults)
    (hel : c'.el = c.el) (hdata : c'.data = c.data) (hdef : c'.defaults = c.defaults) :
    (Component.configureData c').data = (Component.configureData c).data ∧
    Component.configureData (Component.configureData c) = Component.configureData c := by
  constructor
  · show some (objectAssign c'.defaults [some (domData c'.el), c'.data])
        = some (objectAssign c.defaults [some (domData c.el), c.data])
    rw [hel, hdata, hdef]
  · have hT : NodupKeys (assignPairs c.defaults (domData c.el)) :=
      nodupKeys_assignPairs c.defaults (domData c.el) hD
    have key : ∀ od : Option JSObject,
        objectAssign c.defaults
            [some (domData c.el), some (objectAssign c.defaults [some (domData c.el), od])]
          = objectAssign c.defaults [some (domData c.el), od] := by
      intro od
      cases od with
      | none =>
          show assignPairs (assignPairs c.defaults (domData c.el))
              (assignPairs c.defaults (domData c.el)) = assignPairs c.defaults (domData c.el)
          exact assignPairs_absorb _ _ hT ⟨[], by simp⟩ hT
      | some O =>
          show assignPairs (assignPairs c.defaults (domData c.el))
              (assignPairs (assignPairs c.defaults (domData c.el)) O)
            = assignPairs (assignPairs c.defaults (domData c.el)) O
          exact assignPairs_absorb _ _ hT
            (keys_assignPairs O (assignPairs c.defaults (domData c.el)))
            (nodupKeys_assignPairs _ O hT)
    show ({ c with data := some (objectAssign c.defaults [some (domData c.el),
        some (objectAssign c.defaults [some (domData c.el), c.data])]) } : Component)
      = { c with data := some (objectAssign c.defaults [some (domData c.el), c.data]) }
    rw [key c.data]

/-- Witness for C8 on two concrete instances sharing the three inputs but
differing in mediator and identity. -/
theorem configureData_idempotent_witness :
    NodupKeys (⟨demoAttrs, some demoOverride, demoDefaults, none, 0⟩ : Component).defaults ∧
    ((Component.configureData ⟨demoAttrs, some demoOverride, demoDefaults, some 7, 4⟩).data
        = (Component.configureData ⟨demoAttrs, some demoOverride, demoDefaults, none, 0⟩).data ∧
     Component.configureData
        (Component.configureData ⟨demoAttrs, some demoOverride, demoDefaults, none, 0⟩)
      = Component.configureData ⟨demoAttrs, some demoOverride, demoDefaults, none, 0⟩) :=
  ⟨by decide,
    configureData_idempotent ⟨demoAttrs, some demoOverride, demoDefaults, none, 0⟩
      ⟨demoAttrs, some demoOverride, demoDefaults, some 7, 4⟩ (by decide) rfl rfl rfl⟩

/-! ### The timer event loop -/

theorem firstReady_some (now : Nat) (ts : List Timer) (t : Timer)
    (h : firstReady now ts = some t) : t ∈ ts ∧ t.deadline ≤ now := by
  induction ts with
  | nil => cases h
  | cons u ts' ih =>
      rw [firstReady] at h
      by_cases hu : u.deadline ≤ now
      · rw [if_pos hu] at h
        obtain rfl := Option.some.inj h
        exact ⟨List.mem_cons_self _ _, hu⟩
      · rw [if_neg hu] at h
        rcases ih h with ⟨hmem, hle⟩
        exact ⟨List.mem_cons_of_mem u hmem, hle⟩

theorem firstReady_none (now : Nat) (ts : List Timer) (h : firstReady now ts = none) :
    ∀ t ∈ ts, now < t.deadline := by
  induction ts with
  | nil => intro t ht; exact absurd ht (List.not_mem_nil t)
  | cons u ts' ih =>
      rw [firstReady] at h
      by_cases hu : u.deadline ≤ now
      · rw [if_pos hu] at h; cases h
      · rw [if_neg hu] at h
        intro t ht
        rcases List.mem_cons.mp ht with rfl | ht'
        · omega
        · exact ih h t ht'

theorem removeFirstReady_sublist (now : Nat) (ts : List Timer) :
    (removeFirstReady now ts).Sublist ts := by
  induction ts with
  | nil => exact List.Sublist.refl []
  | cons u ts' ih =>
      rw [removeFirstReady]
      by_cases hu : u.deadline ≤ now
      · rw [if_pos hu]
        exact List.sublist_cons_self u ts'
      · rw [if_neg hu]
        exact List.Sublist.cons₂ u ih

theorem removeFirstReady_length (now : Nat) (ts : List Timer) (t : Timer)
    (h : firstReady now ts = some t) :
    (removeFirstReady now ts).length + 1 = ts.length := by
  induction ts with
  | nil => cases h
  | cons u ts' ih =>
      rw [firstReady] at h
      rw [removeFirstReady]
      by_cases hu : u.deadline ≤ now
      · rw [if_pos hu]; rfl
      · rw [if_neg hu] at h ⊢
        simp only [List.length_cons]
        rw [← ih h]

theorem removeFirstReady_countP (now : Nat) (ts : List Timer) (t : Timer)
    (h : firstReady now ts = some t) (p : Timer → Bool) :
    List.countP p ts = List.countP p (removeFirstReady now ts) + (if p t then 1 else 0) := by
  induction ts with
  | nil => cases h
  | cons u ts' ih =>
      rw [firstReady] at h
      rw [removeFirstReady]
      by_cases hu : u.deadline ≤ now
      · rw [if_pos hu] at h ⊢
        obtain rfl := Option.some.inj h
        rw [List.countP_cons]
      · rw [if_neg hu] at h ⊢
        rw [List.countP_cons, List.countP_cons, ih h]
        omega

theorem maxDeadline_mem (ts : List Timer) (t : Timer) (h : t ∈ ts) :
    t.deadline ≤ maxDeadline ts := by
  induction ts with
  | nil => exact absurd h (List.not_mem_nil t)
  | cons u ts' ih =>
      rcases List.mem_cons.mp h with rfl | h'
      · exact le_max_left _ _
      · exact le_trans (ih h') (le_max_right _ _)

theorem maxDeadline_sublist (ts' ts : List Timer) (h : ts'.Sublist ts) :
    maxDeadline ts' ≤ maxDeadline ts := by
  induction h with
  | slnil => exact le_refl 0
  | cons a h ih => exact le_trans ih (le_max_right _ _)
  | cons₂ a h ih =>
      show max a.deadline (maxDeadline _) ≤ max a.deadline (maxDeadline _)
      exact max_le_max (le_refl _) ih

theorem loopStep_count (s : Runtime) (cb : Nat) :
    countFired cb (loopStep s).fired + countPending cb (loopStep s).pending
      = countFired cb s.fired + countPending cb s.pending := by
  rw [loopStep]
  cases h : firstReady s.now s.pending with
  | none => rfl
  | some t =>
      simp only [countFired, countPending]
      rw [List.countP_append,
        removeFirstReady_countP s.now s.pending t h (fun tm => tm.cb == cb)]
      simp only [List.countP_cons, List.countP_nil]
      dsimp only
      split_ifs <;> omega

theorem run_count (n : Nat) :
    ∀ (s : Runtime) (cb : Nat),
      countFired cb (run n s).fired + countPending cb (run n s).pending
        = countFired cb s.fired + countPending cb s.pending := by
  induction n with
  | zero => intro s cb; rfl
  | succ n ih =>
      intro s cb
      show countFired cb (run n (loopStep s)).fired + countPending cb (run n (loopStep s)).pending
          = _
      rw [ih (loopStep s) cb, loopStep_count s cb]

/-- The pending timer for `cb` still waits for its deadline and every
firing of `cb` so far happened no earlier than `dl`. -/
def TimerOK (dl cbv : Nat) (s : Runtime) : Prop :=
  (∀ t ∈ s.pending, t.cb = cbv → dl ≤ t.deadline) ∧
  (∀ p ∈ s.fired, p.2 = cbv → dl ≤ p.1)

theorem loopStep_timerOK (dl cbv : Nat) (s : Runtime) (h : TimerOK dl cbv s) :
    TimerOK dl cbv (loopStep s) := by
  obtain ⟨hpend, hfired⟩ := h
  rw [loopStep]
  cases hfr : firstReady s.now s.pending with
  | none => exact ⟨hpend, hfired⟩
  | some t =>
      rcases firstReady_some s.now s.pending t hfr with ⟨hmem, hdl⟩
      constructor
      · intro u hu hcb
        exact hpend u ((removeFirstReady_sublist s.now s.pending).mem hu) hcb
      · intro p hp hcb
        rcases List.mem_append.mp hp with hold | hnew
        · exact hfired p hold hcb
        · rcases List.mem_singleton.mp hnew with rfl
          simp only at hcb
          exact le_trans (hpend t hmem hcb) hdl

theorem run_timerOK (n : Nat) :
    ∀ (dl cbv : Nat) (s : Runtime), TimerOK dl cbv s → TimerOK dl cbv (run n s) := by
  induction n with
  | zero => intro dl cbv s h; exact h
  | succ n ih =>
      intro dl cbv s h
      exact ih dl cbv (loopStep s) (loopStep_timerOK dl cbv s h)

theorem loopStep_measure (s : Runtime) (hne : s.pending ≠ []) :
    rtMeasure (loopStep s) < rtMeasure s := by
  rw [loopStep]
  cases hfr : firstReady s.now s.pending with
  | some t =>
      have hlen := removeFirstReady_length s.now s.pending t hfr
      have hmax := maxDeadline_sublist _ _ (removeFirstReady_sublist s.now s.pending)
      rw [rtMeasure, rtMeasure]
      simp only []
      omega
  | none =>
      rcases List.exists_mem_of_ne_nil s.pending hne with ⟨t₀, ht₀⟩
      have h1 : s.now < t₀.deadline := firstReady_none s.now s.pending hfr t₀ ht₀
      have h2 : t₀.deadline ≤ maxDeadline s.pending := maxDeadline_mem s.pending t₀ ht₀
      rw [rtMeasure, rtMeasure]
      simp only []
      omega

theorem run_reaches_empty (μ : Nat) :
    ∀ s : Runtime, rtMeasure s ≤ μ → ∃ n, (run n s).pending = [] := by
  induction μ with
  | zero =>
      intro s hs
      rw [rtMeasure] at hs
      have : s.pending.length = 0 := by omega
      exact ⟨0, List.length_eq_zero.mp this⟩
  | succ μ ih =>
      intro s hs
      by_cases hp : s.pending = []
      · exact ⟨0, hp⟩
      · have hstep := loopStep_measure s hp
        rcases ih (loopStep s) (by omega) with ⟨n, hn⟩
        exact ⟨n + 1, hn⟩

/-- C10: `defer(cb, d)` schedules `cb` exactly once: the delay defaults
to 17 ms when omitted; nothing fires during the call itself (asynchrony);
across every event-loop run the callback fires at most once and never
earlier than `d` ms after the call; and some run fires it exactly once.
`defer` discards `setTimeout`'s handle, returning no cancellation
handle. -/
theorem defer_schedules_once (rt : Runtime) (cb : Nat) (ms : Option Nat)
    (hp : countPending cb rt.pending = 0) (hf : countFired cb rt.fired = 0) :
    defer rt cb none = defer rt cb (some 17) ∧
    (defer rt cb ms).fired = rt.fired ∧
    (defer rt cb ms).now = rt.now ∧
    (∀ n, countFired cb (run n (defer rt cb ms)).fired ≤ 1) ∧
    (∀ n time, (time, cb) ∈ (run n (defer rt cb ms)).fired → rt.now + ms.getD 17 ≤ time) ∧
    (∃ n, countFired cb (run n (defer rt cb ms)).fired = 1) := by
  have hpend : (defer rt cb ms).pending
      = rt.pending ++ [⟨cb, rt.now + ms.getD 17⟩] := rfl
  have hcount1 : countPending cb (defer rt cb ms).pending = 1 := by
    rw [hpend, countPending, List.countP_append]
    simp only [List.countP_cons, List.countP_nil, beq_self_eq_true, if_true]
    rw [countPending] at hp
    omega
  have hconserved : ∀ n,
      countFired cb (run n (defer rt cb ms)).fired
        + countPending cb (run n (defer rt cb ms)).pending = 1 := by
    intro n
    rw [run_count n (defer rt cb ms) cb]
    have hfired0 : countFired cb (defer rt cb ms).fired = countFired cb rt.fired := rfl
    rw [hfired0, hf, hcount1]
  refine ⟨rfl, rfl, rfl, ?_, ?_, ?_⟩
  · intro n
    have := hconserved n
    omega
  · intro n time htime
    have hok : TimerOK (rt.now + ms.getD 17) cb (defer rt cb ms) := by
      constructor
      · intro t ht hcb
        rw [hpend] at ht
        rcases List.mem_append.mp ht with hold | hnew
        · exfalso
          rw [countPending, List.countP_eq_zero] at hp
          exact hp t hold (by simp [hcb])
        · rcases List.mem_singleton.mp hnew with rfl
          exact le_refl _
      · intro p hpf hcb
        exfalso
        rw [countFired, List.countP_eq_zero] at hf
        exact hf p hpf (by simp [hcb])
    exact (run_timerOK n (rt.now + ms.getD 17) cb (defer rt cb ms) hok).2 (time, cb) htime rfl
  · rcases run_reaches_empty (rtMeasure (defer rt cb ms)) (defer rt cb ms) (le_refl _)
      with ⟨n, hn⟩
    refine ⟨n, ?_⟩
    have := hconserved n
    rw [hn] at this
    simpa [countPending] using this

/-- Witness for C10: a fresh callback deferred on an idle runtime. -/
theorem defer_schedules_once_witness :
    countPending 5 ([] : List Timer) = 0 ∧
    countFired 5 ([] : List (Nat × Nat)) = 0 ∧
    (defer ⟨0, [], []⟩ 5 none = defer ⟨0, [], []⟩ 5 (some 17) ∧
     (defer ⟨0, [], []⟩ 5 (some 3)).fired = [] ∧
     (defer ⟨0, [], []⟩ 5 (some 3)).now = 0 ∧
     (∀ n, countFired 5 (run n (defer ⟨0, [], []⟩ 5 (some 3))).fired ≤ 1) ∧
     (∀ n time, (time, 5) ∈ (run n (defer ⟨0, [], []⟩ 5 (some 3))).fired → 0 + 3 ≤ time) ∧
     (∃ n, countFired 5 (run n (defer ⟨0, [], []⟩ 5 (some 3))).fired = 1)) :=
  ⟨rfl, rfl, defer_schedules_once ⟨0, [], []⟩ 5 (some 3) rfl rfl⟩
